import Mathlib

/-!
Verification development for the `Cipher` core of libQtShadowsocks
(`src/lib/cipher.h`).  The repository ships only the class header, so the
behaviour of the engine (method registry, key derivation, stream engines,
AEAD chunk framer, randomness provider) is modelled from the specification:
bytes are `Nat`s, byte strings are `List Nat`, and the external
cryptographic primitives (AEAD seal/open, digest, HKDF, CSPRNG) are
modelled as concrete capability functions faithful to the interface the
spec describes.
-/

/-- Cipher family tag, mirroring `Cipher::CipherType` in `cipher.h`. -/
inductive CipherType
  | STREAM
  | AEAD
deriving DecidableEq, Repr

/-- Per-method metadata, mirroring `Cipher::CipherInfo` in `cipher.h`. -/
structure CipherInfo where
  internalName : String
  keyLen : Nat
  ivLen : Nat
  type : CipherType
  saltLen : Nat
  tagLen : Nat
deriving DecidableEq, Repr

/-- Modelled from the spec: the method registry `Cipher::cipherInfoMap`
(implementation file absent).  Maps each Shadowsocks method name to its
`CipherInfo`; entries for the methods the spec names, with the standard
key/iv/salt/tag lengths of the protocol. -/
def cipherInfoMap : List (String × CipherInfo) :=
  [ ("rc4-md5", ⟨"RC4", 16, 16, CipherType.STREAM, 0, 0⟩),
    ("chacha20", ⟨"ChaCha", 32, 8, CipherType.STREAM, 0, 0⟩),
    ("chacha20-ietf", ⟨"ChaCha", 32, 12, CipherType.STREAM, 0, 0⟩),
    ("aes-128-gcm", ⟨"AES-128/GCM", 16, 12, CipherType.AEAD, 16, 16⟩),
    ("aes-192-gcm", ⟨"AES-192/GCM", 24, 12, CipherType.AEAD, 24, 16⟩),
    ("aes-256-gcm", ⟨"AES-256/GCM", 32, 12, CipherType.AEAD, 32, 16⟩),
    ("chacha20-ietf-poly1305", ⟨"ChaCha20Poly1305", 32, 12, CipherType.AEAD, 32, 16⟩) ]

/-- `Cipher::isSupported`: a method is supported iff the registry has it. -/
def isSupported (method : String) : Bool :=
  (List.lookup method cipherInfoMap).isSome

/-- `Cipher::kdfLabel`, the fixed protocol label `"ss-subkey"` fed to the
KDF, as ASCII bytes. -/
def kdfLabel : List Nat := [115, 115, 45, 115, 117, 98, 107, 101, 121]

/-- AEAD authentication-tag length (16 bytes for every AEAD method in the
registry). -/
def TAG_LEN : Nat := 16

/-- Maximum payload bytes per AEAD chunk (`0x3FFF`, from the spec). -/
def MAX_CHUNK : Nat := 16383

/-- Modelled from the spec: the external digest primitive used by the
legacy key-stretching scheme (MD5 in the original protocol; treated by the
spec as an external collaborator).  Produces a 16-byte digest. -/
def digestModel (input : List Nat) : List Nat :=
  (List.range 16).map
    (fun i => (input.foldr (· + ·) 0 * 31 + input.length * 17 + i * 101) % 256)

/-- Modelled from the spec: the legacy stream-cipher key stretching —
repeatedly hash the password (previous digest output concatenated with the
password) until enough bytes are produced, then truncate to `keyLen`. -/
def evpBlocks (password : List Nat) : Nat → List Nat → List Nat
  | 0, _ => []
  | k + 1, prev =>
      let b := digestModel (prev ++ password)
      b ++ evpBlocks password k b

/-- Modelled from the spec: password-to-key stretching for stream-family
methods. -/
def evpBytesToKey (password : List Nat) (keyLen : Nat) : List Nat :=
  (evpBlocks password keyLen []).take keyLen

/-- Modelled from the spec: the external HKDF primitive (`HKDF-SHA1` in the
protocol), modelled as an ideal KDF: `keyLen` output bytes, each mixing the
salt byte at that position with a pseudo-random function of the secret and
the info label. -/
def hkdf (secret salt info : List Nat) (keyLen : Nat) : List Nat :=
  (List.range keyLen).map
    (fun i =>
      (salt.getD i 0) ^^^
        ((secret.foldr (· + ·) 0 * 131 + info.foldr (· + ·) 0 * 31 + i * 101) % 256))

/-- Modelled from the spec: `Cipher::deriveSubkey` — the AEAD working key
is `HKDF(secret = masterKey, salt = sessionSalt, info = kdfLabel,
length = keyLen)`. -/
def deriveSubkey (info : CipherInfo) (psKey iv : List Nat) : List Nat :=
  hkdf psKey iv kdfLabel info.keyLen

/-- Modelled from the spec: `Cipher::randomIv(int)` — the RandomnessProvider,
with the external CSPRNG modelled as a byte-stream parameter `rng`. -/
def randomIv (rng : Nat → Nat) (length : Nat) : List Nat :=
  (List.range length).map rng

/-- Modelled from the spec: the `Cipher::randomIv(method)` overload — a
random salt of `saltLen` bytes for AEAD methods, a random IV of `ivLen`
bytes otherwise. -/
def randomIvMethod (rng : Nat → Nat) (method : String) : Option (List Nat) :=
  (List.lookup method cipherInfoMap).map
    (fun info =>
      if info.type = CipherType.AEAD then randomIv rng info.saltLen
      else randomIv rng info.ivLen)

/-- Error taxonomy relevant to `Cipher::update` (spec section 7):
authentication failure during AEAD decryption. -/
inductive CipherError
  | tagMismatch
deriving DecidableEq, Repr

/-- Modelled from the spec: keystream byte `i` of the external AEAD
primitive's cipher under `(key, nonce)`. -/
def ksByte (key : List Nat) (nonce i : Nat) : Nat :=
  (key.foldr (· + ·) 0 * 131 + nonce * 17 + i * 101) % 256

/-- XOR a byte string against the `(key, nonce)` keystream starting at
position `i` (used both to seal and to open — XOR is self-inverse). -/
def xorKs (key : List Nat) (nonce : Nat) : Nat → List Nat → List Nat
  | _, [] => []
  | i, b :: bs => (b ^^^ ksByte key nonce i) :: xorKs key nonce (i + 1) bs

/-- XOR-fold of a byte string (the checksum driving the model tag). -/
def xorFold : List Nat → Nat
  | [] => 0
  | b :: bs => b ^^^ xorFold bs

/-- Modelled from the spec: the authentication tag of the external AEAD
primitive over ciphertext `ct` under `(key, nonce)`: `TAG_LEN` bytes, the
first mixing a checksum of the ciphertext with key and nonce — so any
single-bit change of the ciphertext changes the tag. -/
def tagOf (key : List Nat) (nonce : Nat) (ct : List Nat) : List Nat :=
  (xorFold ct ^^^ xorFold key ^^^ nonce % 256) ::
    List.replicate (TAG_LEN - 1) ((key.foldr (· + ·) 0 + nonce) % 256)

/-- Modelled from the spec: AEAD seal — encrypt `pt` under `(key, nonce)`
and append the authentication tag. -/
def sealRecord (key : List Nat) (nonce : Nat) (pt : List Nat) : List Nat :=
  let ct := xorKs key nonce 0 pt
  ct ++ tagOf key nonce ct

/-- Modelled from the spec: AEAD open — split a wire record into its
`ctLen` ciphertext bytes and trailing tag, verify the tag, and decrypt;
`none` on tag mismatch. -/
def openRecord (key : List Nat) (nonce ctLen : Nat) (record : List Nat) :
    Option (List Nat) :=
  let ct := record.take ctLen
  let tg := record.drop ctLen
  if tg = tagOf key nonce ct then some (xorKs key nonce 0 ct) else none

/-- 2-byte big-endian encoding of a chunk length (spec section 4.4). -/
def enc2 (l : Nat) : List Nat := [l / 256 % 256, l % 256]

/-- Decode a 2-byte big-endian chunk length. -/
def dec2 (b : List Nat) : Nat := b.getD 0 0 * 256 + b.getD 1 0

/-- Split a plaintext into chunks of at most `MAX_CHUNK` bytes (fuel-indexed
so the definition computes; `chunkSplit` instantiates the fuel). -/
def chunkSplitF : Nat → List Nat → List (List Nat)
  | 0, _ => []
  | fuel + 1, pt =>
      if pt = [] then []
      else pt.take MAX_CHUNK :: chunkSplitF fuel (pt.drop MAX_CHUNK)

/-- Modelled from the spec: the AEAD encryption side splits each `update`
payload into chunks of at most `MAX_CHUNK` bytes. -/
def chunkSplit (pt : List Nat) : List (List Nat) :=
  chunkSplitF pt.length pt

/-- Modelled from the spec: the AEAD encryption side.  For each chunk, seal
the 2-byte big-endian length under the current nonce, then seal the payload
under the incremented nonce, incrementing again afterwards.  Returns the
concatenated wire records, the trace of nonce values consumed by seal
operations (in order), and the final nonce counter. -/
def encChunks (key : List Nat) : Nat → List (List Nat) → List Nat × List Nat × Nat
  | nonce, [] => ([], [], nonce)
  | nonce, c :: cs =>
      let r1 := sealRecord key nonce (enc2 c.length)
      let r2 := sealRecord key (nonce + 1) c
      let r := encChunks key (nonce + 2) cs
      (r1 ++ r2 ++ r.1, nonce :: (nonce + 1) :: r.2.1, r.2.2)

/-- Result of a decryption step: final nonce, awaited-payload state,
leftover buffer, produced plaintext. -/
abbrev DecResult := Nat × Option Nat × List Nat × List Nat

/-- Modelled from the spec: the AEAD decryption state machine (fuel-indexed
so the definition computes; `decProcess` instantiates the fuel).  With no
awaited payload (`none`), it needs `2 + TAG_LEN` buffered bytes to open a
length record; with `some l`, it needs `l + TAG_LEN` bytes to open the
payload record.  Each successful open advances the nonce by one; leftover
bytes stay buffered; a failed tag check aborts with `tagMismatch`. -/
def decProcessF (key : List Nat) : Nat → Nat → Option Nat → List Nat →
    Except CipherError DecResult
  | 0, nonce, aw, buf => .ok (nonce, aw, buf, [])
  | fuel + 1, nonce, none, buf =>
      if buf.length < 2 + TAG_LEN then .ok (nonce, none, buf, [])
      else
        match openRecord key nonce 2 (buf.take (2 + TAG_LEN)) with
        | none => .error CipherError.tagMismatch
        | some lenB =>
            decProcessF key fuel (nonce + 1) (some (dec2 lenB)) (buf.drop (2 + TAG_LEN))
  | fuel + 1, nonce, some l, buf =>
      if buf.length < l + TAG_LEN then .ok (nonce, some l, buf, [])
      else
        match openRecord key nonce l (buf.take (l + TAG_LEN)) with
        | none => .error CipherError.tagMismatch
        | some pt =>
            match decProcessF key fuel (nonce + 1) none (buf.drop (l + TAG_LEN)) with
            | .error e => .error e
            | .ok (n', aw', buf', out) => .ok (n', aw', buf', pt ++ out)

/-- Modelled from the spec: drain the AEAD decryption buffer: open as many
complete records as are buffered, stopping when too few bytes remain. -/
def decProcess (key : List Nat) (nonce : Nat) (aw : Option Nat) (buf : List Nat) :
    Except CipherError DecResult :=
  decProcessF key buf.length nonce aw buf

/-- RC4 engine state (spec section 4.3): a 256-entry permutation plus the
two running indices. -/
structure RC4State where
  S : List Nat
  i : Nat
  j : Nat
deriving DecidableEq, Repr

/-- Swap two positions of a byte list. -/
def swapL (l : List Nat) (a b : Nat) : List Nat :=
  (l.set a (l.getD b 0)).set b (l.getD a 0)

/-- Modelled from the spec: the RC4 key schedule — start from the identity
permutation and mix the key in over 256 swap rounds. -/
def rc4Init (key : List Nat) : RC4State :=
  let r := (List.range 256).foldl
    (fun (acc : List Nat × Nat) i =>
      let j := (acc.2 + acc.1.getD i 0 + key.getD (i % key.length) 0) % 256
      (swapL acc.1 i j, j))
    (List.range 256, 0)
  ⟨r.1, 0, 0⟩

/-- Modelled from the spec: one step of the RC4 pseudo-random generation
algorithm — advance the indices, swap, and emit the next keystream byte. -/
def rc4Next (st : RC4State) : RC4State × Nat :=
  let i := (st.i + 1) % 256
  let j := (st.j + st.S.getD i 0) % 256
  let S := swapL st.S i j
  (⟨S, i, j⟩, S.getD ((S.getD i 0 + S.getD j 0) % 256) 0)

/-- Reduce modulo `2 ^ 32` (ChaCha operates on 32-bit words). -/
def wrap32 (x : Nat) : Nat := x % 4294967296

/-- Rotate a 32-bit word left by `n` bits. -/
def rotl32 (x n : Nat) : Nat :=
  wrap32 ((x <<< n) ||| (x >>> (32 - n)))

/-- One ChaCha quarter round acting on positions `a b c d` of the 16-word
state (spec section 4.3). -/
def qround (s : List Nat) (a b c d : Nat) : List Nat :=
  let A := wrap32 (s.getD a 0 + s.getD b 0)
  let D := rotl32 (s.getD d 0 ^^^ A) 16
  let C := wrap32 (s.getD c 0 + D)
  let B := rotl32 (s.getD b 0 ^^^ C) 12
  let A2 := wrap32 (A + B)
  let D2 := rotl32 (D ^^^ A2) 8
  let C2 := wrap32 (C + D2)
  let B2 := rotl32 (B ^^^ C2) 7
  (((s.set a A2).set b B2).set c C2).set d D2

/-- A ChaCha double round: four column rounds then four diagonal rounds. -/
def doubleRound (s : List Nat) : List Nat :=
  qround (qround (qround (qround
    (qround (qround (qround (qround s 0 4 8 12) 1 5 9 13) 2 6 10 14) 3 7 11 15)
    0 5 10 15) 1 6 11 12) 2 7 8 13) 3 4 9 14

/-- Iterate the double round (10 iterations = the 20 ChaCha rounds). -/
def chachaRounds : Nat → List Nat → List Nat
  | 0, s => s
  | k + 1, s => chachaRounds k (doubleRound s)

/-- Group bytes into 32-bit little-endian words. -/
def le32Words : List Nat → List Nat
  | b0 :: b1 :: b2 :: b3 :: rest =>
      (b0 + 256 * b1 + 65536 * b2 + 16777216 * b3) :: le32Words rest
  | _ => []

/-- Serialize a 32-bit word into 4 little-endian bytes. -/
def wordBytes (w : Nat) : List Nat :=
  [w % 256, w / 256 % 256, w / 65536 % 256, w / 16777216 % 256]

/-- Modelled from the spec: one 64-byte ChaCha20 keystream block generated
from `(key, nonce, block counter)` by 20 rounds of quarter-round mixing
added to the initial state. -/
def chachaBlock (key nonce : List Nat) (counter : Nat) : List Nat :=
  let st0 := [1634760805, 857760878, 2036477234, 1797285236] ++
    le32Words key ++ wrap32 counter :: le32Words nonce
  let stN := chachaRounds 10 st0
  ((List.range 16).map (fun i => wrap32 (st0.getD i 0 + stN.getD i 0))).flatMap wordBytes

/-- ChaCha20 engine state (spec section 3): key, nonce, block counter, the
current keystream block, and the consumed-byte offset within it. -/
structure ChaChaState where
  key : List Nat
  nonce : List Nat
  counter : Nat
  block : List Nat
  pos : Nat
deriving DecidableEq, Repr

/-- Modelled from the spec: emit the next ChaCha20 keystream byte,
generating a fresh block and advancing the counter when the current block
is exhausted. -/
def chachaNext (st : ChaChaState) : ChaChaState × Nat :=
  if st.pos < st.block.length then
    ({ st with pos := st.pos + 1 }, st.block.getD st.pos 0)
  else
    let blk := chachaBlock st.key st.nonce st.counter
    ({ st with block := blk, counter := st.counter + 1, pos := 1 }, blk.getD 0 0)

/-- Modelled from the spec: the stream-cipher engine driver — XOR each data
byte with the next keystream byte, threading the engine state.  The state
transition never depends on the data, so encrypt and decrypt are the same
transform. -/
def streamXor {σ : Type} (next : σ → σ × Nat) : σ → List Nat → σ × List Nat
  | st, [] => (st, [])
  | st, b :: bs =>
      let r := next st
      let rest := streamXor next r.1 bs
      (rest.1, (b ^^^ r.2) :: rest.2)

/-- The `Cipher` instance state, mirroring the members of the C++ class in
`cipher.h`: resolved `CipherInfo`, derived working key, the IV/salt fixed at
construction, the direction flag, the optional stream engines (`rc4`,
`chacha`), and the AEAD framer state (nonce counter, awaited payload
length, partial-input buffer) modelled from the spec. -/
structure Cipher where
  cipherInfo : CipherInfo
  key : List Nat
  iv : List Nat
  encrypt : Bool
  rc4 : Option RC4State
  chacha : Option ChaChaState
  nonce : Nat
  awaiting : Option Nat
  buf : List Nat
deriving DecidableEq, Repr

/-- Modelled from the spec: the `Cipher` constructor — resolve the method in
the registry, run key derivation (HKDF subkey for AEAD, legacy stretching
for stream methods), and initialise the matching engine.  `none` when the
method is absent from the registry. -/
def makeCipher (method : String) (psKey iv : List Nat) (encrypt : Bool) :
    Option Cipher :=
  match List.lookup method cipherInfoMap with
  | none => none
  | some info =>
      match info.type with
      | CipherType.AEAD =>
          some { cipherInfo := info, key := deriveSubkey info psKey iv, iv := iv,
                 encrypt := encrypt, rc4 := none, chacha := none,
                 nonce := 0, awaiting := none, buf := [] }
      | CipherType.STREAM =>
          let wk := evpBytesToKey psKey info.keyLen
          if info.internalName = "RC4" then
            some { cipherInfo := info, key := wk, iv := iv, encrypt := encrypt,
                   rc4 := some (rc4Init (digestModel (wk ++ iv))), chacha := none,
                   nonce := 0, awaiting := none, buf := [] }
          else if info.internalName = "ChaCha" then
            some { cipherInfo := info, key := wk, iv := iv, encrypt := encrypt,
                   rc4 := none, chacha := some ⟨wk, iv, 0, [], 0⟩,
                   nonce := 0, awaiting := none, buf := [] }
          else none

/-- Modelled from the spec: `Cipher::update` — stream ciphers feed the data
through the keystream engine; AEAD encryption chunks and seals the payload;
AEAD decryption appends the data to the partial-input buffer and drains all
complete records, failing with `tagMismatch` on a forged record. -/
def cipherUpdate (c : Cipher) (data : List Nat) :
    Except CipherError (Cipher × List Nat) :=
  match c.cipherInfo.type with
  | CipherType.STREAM =>
      match c.rc4 with
      | some st =>
          let r := streamXor rc4Next st data
          .ok ({ c with rc4 := some r.1 }, r.2)
      | none =>
          match c.chacha with
          | some st =>
              let r := streamXor chachaNext st data
              .ok ({ c with chacha := some r.1 }, r.2)
          | none => .ok (c, data)
  | CipherType.AEAD =>
      if c.encrypt then
        let r := encChunks c.key c.nonce (chunkSplit data)
        .ok ({ c with nonce := r.2.2 }, r.1)
      else
        match decProcess c.key c.nonce c.awaiting (c.buf ++ data) with
        | .error e => .error e
        | .ok (n', aw', buf', out) =>
            .ok ({ c with nonce := n', awaiting := aw', buf := buf' }, out)

/-- Feed a sequence of `update` calls to a cipher, concatenating the
produced output; an authentication failure aborts the session. -/
def cipherUpdates (c : Cipher) : List (List Nat) →
    Except CipherError (Cipher × List Nat)
  | [] => .ok (c, [])
  | d :: ds =>
      match cipherUpdate c d with
      | .error e => .error e
      | .ok (c', out) =>
          match cipherUpdates c' ds with
          | .error e => .error e
          | .ok (c'', outs) => .ok (c'', out ++ outs)

/-- `Cipher::getIV`: the IV/salt in use. -/
def getIV (c : Cipher) : List Nat := c.iv

/-- Construct an encrypting cipher and run one `update` call. -/
def encryptOnce (method : String) (psKey iv pt : List Nat) : Option (List Nat) :=
  match makeCipher method psKey iv true with
  | none => none
  | some c =>
      match cipherUpdate c pt with
      | .error _ => none
      | .ok (_, out) => some out

/-- Construct a decrypting cipher and run one `update` call. -/
def decryptOnce (method : String) (psKey iv ct : List Nat) : Option (List Nat) :=
  match makeCipher method psKey iv false with
  | none => none
  | some c =>
      match cipherUpdate c ct with
      | .error _ => none
      | .ok (_, out) => some out

/-- Decidable equality of `update` results, so concrete runs evaluate. -/
instance {e a : Type} [DecidableEq e] [DecidableEq a] : DecidableEq (Except e a) :=
  fun x y =>
  match x, y with
  | Except.error e1, Except.error e2 =>
      match decEq e1 e2 with
      | isTrue h => isTrue (h ▸ rfl)
      | isFalse h => isFalse (fun hc => h (Except.error.inj hc))
  | Except.error _, Except.ok _ => isFalse (fun hc => Except.noConfusion hc)
  | Except.ok _, Except.error _ => isFalse (fun hc => Except.noConfusion hc)
  | Except.ok v1, Except.ok v2 =>
      match decEq v1 v2 with
      | isTrue h => isTrue (h ▸ rfl)
      | isFalse h => isFalse (fun hc => h (Except.ok.inj hc))

/-- A concrete 32-byte master key used in the concrete scenarios. -/
def key32 : List Nat := List.range 32

/-- A concrete 32-byte session salt used in the concrete scenarios. -/
def salt32 : List Nat := (List.range 32).map (fun i => i + 100)

/-- A second, different 32-byte session salt. -/
def salt32b : List Nat := (List.range 32).map (fun i => i + 50)

/-- The ASCII bytes of the 5-byte plaintext `"hello"`. -/
def helloBytes : List Nat := [104, 101, 108, 108, 111]

/-- The registry entry for `"chacha20-ietf-poly1305"`. -/
def aeadInfoCP : CipherInfo := ⟨"ChaCha20Poly1305", 32, 12, CipherType.AEAD, 32, 16⟩

/-- The derived working key of the concrete AEAD session. -/
def c5key : List Nat := hkdf key32 salt32 kdfLabel 32

/-- The concrete encrypting AEAD cipher. -/
def c5ce : Cipher := ⟨aeadInfoCP, c5key, salt32, true, none, none, 0, none, []⟩

/-- The concrete decrypting AEAD cipher. -/
def c5cd : Cipher := ⟨aeadInfoCP, c5key, salt32, false, none, none, 0, none, []⟩

/-- The 39-byte ciphertext of `"hello"` under the concrete session. -/
def c5ct : List Nat := (encChunks c5key 0 (chunkSplit helloBytes)).1

/-- The encrypting cipher after one `update` (nonce advanced to 2). -/
def c5ce2 : Cipher := ⟨aeadInfoCP, c5key, salt32, true, none, none, 2, none, []⟩

/-- A concrete 8-byte IV for the `"chacha20"` stream method. -/
def iv8 : List Nat := [1, 2, 3, 4, 5, 6, 7, 8]

/-- The registry entry for `"chacha20"`. -/
def chachaInfo : CipherInfo := ⟨"ChaCha", 32, 8, CipherType.STREAM, 0, 0⟩

/-- The stretched stream working key of the concrete stream session. -/
def skey : List Nat := evpBytesToKey key32 32

/-- The initial ChaCha engine state of the concrete stream session. -/
def c6st : ChaChaState := ⟨skey, iv8, 0, [], 0⟩

/-- The concrete encrypting stream cipher. -/
def c6ce : Cipher := ⟨chachaInfo, skey, iv8, true, none, some c6st, 0, none, []⟩

/-- The concrete decrypting stream cipher. -/
def c6cd : Cipher := ⟨chachaInfo, skey, iv8, false, none, some c6st, 0, none, []⟩

/-- A concrete 3-byte stream plaintext. -/
def c6pt : List Nat := [10, 20, 30]

/-- The engine state and output of the concrete stream encryption. -/
def c6r : ChaChaState × List Nat := streamXor chachaNext c6st c6pt

/-- The encrypting stream cipher after one `update`. -/
def c6ce2 : Cipher := ⟨chachaInfo, skey, iv8, true, none, some c6r.1, 0, none, []⟩

/-- The concrete stream ciphertext. -/
def c6ct : List Nat := c6r.2

/-- A second concrete AEAD cipher, built from the different salt. -/
def c7cd : Cipher :=
  ⟨aeadInfoCP, hkdf key32 salt32b kdfLabel 32, salt32b, true, none, none, 0, none, []⟩

/-- The registry entry for `"rc4-md5"`. -/
def rc4Info : CipherInfo := ⟨"RC4", 16, 16, CipherType.STREAM, 0, 0⟩

/-- The registry entry for `"aes-256-gcm"`. -/
def aes256Info : CipherInfo := ⟨"AES-256/GCM", 32, 12, CipherType.AEAD, 32, 16⟩

theorem xor_xor_cancel (b k : Nat) : (b ^^^ k) ^^^ k = b := by
  rw [Nat.xor_assoc, Nat.xor_self, Nat.xor_zero]

theorem xor_ne_self (b m : Nat) (hm : m ≠ 0) : b ^^^ m ≠ b := by
  intro h
  apply hm
  have := congrArg (fun x => x ^^^ b) h
  simpa [Nat.xor_comm, ← Nat.xor_assoc, Nat.xor_self, Nat.zero_xor] using this

theorem xorKs_length (key : List Nat) (nonce : Nat) :
    ∀ i bs, (xorKs key nonce i bs).length = bs.length := by
  intro i bs
  induction bs generalizing i with
  | nil => rfl
  | cons b bs ih => simp [xorKs, ih]

theorem xorKs_xorKs (key : List Nat) (nonce : Nat) :
    ∀ i bs, xorKs key nonce i (xorKs key nonce i bs) = bs := by
  intro i bs
  induction bs generalizing i with
  | nil => rfl
  | cons b bs ih => simp [xorKs, ih, xor_xor_cancel]

theorem tagOf_length (key : List Nat) (nonce : Nat) (ct : List Nat) :
    (tagOf key nonce ct).length = TAG_LEN := by
  simp [tagOf, TAG_LEN]

theorem sealRecord_length (key : List Nat) (nonce : Nat) (pt : List Nat) :
    (sealRecord key nonce pt).length = pt.length + TAG_LEN := by
  simp [sealRecord, xorKs_length, tagOf_length]

theorem openRecord_seal (key : List Nat) (nonce : Nat) (pt : List Nat) :
    openRecord key nonce pt.length (sealRecord key nonce pt) = some pt := by
  unfold openRecord sealRecord
  have hlen : pt.length = (xorKs key nonce 0 pt).length := (xorKs_length key nonce 0 pt).symm
  rw [List.take_left' hlen.symm, List.drop_left' hlen.symm]
  simp [xorKs_xorKs]

theorem xorFold_set (m : Nat) :
    ∀ (xs : List Nat) (j : Nat), j < xs.length →
      xorFold (xs.set j (xs.getD j 0 ^^^ m)) = xorFold xs ^^^ m := by
  intro xs
  induction xs with
  | nil => intro j h; simp at h
  | cons x xs ih =>
      intro j hj
      cases j with
      | zero =>
          simp only [List.getD_cons_zero, List.set_cons_zero, xorFold]
          rw [Nat.xor_assoc, Nat.xor_comm m, ← Nat.xor_assoc]
      | succ j =>
          simp only [List.getD_cons_succ, List.set_cons_succ, xorFold]
          rw [ih j (by simpa using hj), ← Nat.xor_assoc]

theorem set_xor_ne (xs : List Nat) (j m : Nat) (hj : j < xs.length) (hm : m ≠ 0) :
    xs.set j (xs.getD j 0 ^^^ m) ≠ xs := by
  intro h
  have h1 : (xs.set j (xs.getD j 0 ^^^ m)).getD j 0 = xs.getD j 0 := by rw [h]
  rw [List.getD_eq_getElem _ _ (by simpa using hj)] at h1
  rw [List.getElem_set_self] at h1
  exact xor_ne_self _ m hm h1

theorem openRecord_tamper (key : List Nat) (nonce : Nat) (pt : List Nat)
    (j m : Nat) (hj : j < (sealRecord key nonce pt).length) (hm : m ≠ 0) :
    openRecord key nonce pt.length
      ((sealRecord key nonce pt).set j ((sealRecord key nonce pt).getD j 0 ^^^ m)) =
      none := by
  have hct : (xorKs key nonce 0 pt).length = pt.length := xorKs_length key nonce 0 pt
  by_cases hlt : j < (xorKs key nonce 0 pt).length
  · -- the flipped bit lies in the ciphertext portion
    unfold sealRecord at *
    rw [List.getD_append _ _ 0 j hlt, List.set_append_left j _ hlt]
    unfold openRecord
    have hlen : ((xorKs key nonce 0 pt).set j ((xorKs key nonce 0 pt).getD j 0 ^^^ m)).length
        = pt.length := by rw [List.length_set]; exact hct
    rw [List.take_left' hlen, List.drop_left' hlen]
    have hfold : xorFold ((xorKs key nonce 0 pt).set j ((xorKs key nonce 0 pt).getD j 0 ^^^ m))
        = xorFold (xorKs key nonce 0 pt) ^^^ m := xorFold_set m _ j hlt
    have hne : ¬ (tagOf key nonce (xorKs key nonce 0 pt) =
        tagOf key nonce ((xorKs key nonce 0 pt).set j ((xorKs key nonce 0 pt).getD j 0 ^^^ m))) := by
      intro h
      simp only [tagOf, List.cons.injEq] at h
      have hhead := h.1
      rw [hfold] at hhead
      apply xor_ne_self (xorFold (xorKs key nonce 0 pt)) m hm
      have h1 := congrArg (fun x => x ^^^ nonce % 256) hhead
      simp only [xor_xor_cancel] at h1
      have h2 := congrArg (fun x => x ^^^ xorFold key) h1
      simp only [xor_xor_cancel] at h2
      exact h2.symm
    simp only [if_neg hne]
  · -- the flipped bit lies in the tag portion
    push_neg at hlt
    unfold sealRecord at *
    rw [List.getD_append_right _ _ 0 j hlt, List.set_append_right j _ hlt]
    unfold openRecord
    rw [List.take_left' hct, List.drop_left' hct]
    have hj' : j - (xorKs key nonce 0 pt).length < (tagOf key nonce (xorKs key nonce 0 pt)).length := by
      rw [List.length_append] at hj
      omega
    have hne := set_xor_ne (tagOf key nonce (xorKs key nonce 0 pt))
      (j - (xorKs key nonce 0 pt).length) m hj' hm
    simp only [if_neg hne]

theorem dec2_enc2 (l : Nat) (h : l < 65536) : dec2 (enc2 l) = l := by
  simp only [enc2, dec2, List.getD_cons_zero, List.getD_cons_succ]
  omega

theorem enc2_length (l : Nat) : (enc2 l).length = 2 := rfl

theorem chunkSplitF_congr :
    ∀ (f1 f2 : Nat) (pt : List Nat), pt.length ≤ f1 → pt.length ≤ f2 →
      chunkSplitF f1 pt = chunkSplitF f2 pt := by
  intro f1
  induction f1 with
  | zero =>
      intro f2 pt h1 _
      have : pt = [] := List.eq_nil_of_length_eq_zero (Nat.le_zero.mp h1)
      subst this
      cases f2 <;> simp [chunkSplitF]
  | succ k ih =>
      intro f2 pt h1 h2
      cases f2 with
      | zero =>
          have : pt = [] := List.eq_nil_of_length_eq_zero (Nat.le_zero.mp h2)
          subst this
          simp [chunkSplitF]
      | succ g =>
          simp only [chunkSplitF]
          by_cases hpt : pt = []
          · simp [hpt]
          · simp only [if_neg hpt]
            have hlen : (pt.drop MAX_CHUNK).length ≤ k := by
              have := List.length_drop MAX_CHUNK pt
              have hpos : 0 < pt.length := List.length_pos.mpr hpt
              simp only [MAX_CHUNK] at *
              omega
            have hlen2 : (pt.drop MAX_CHUNK).length ≤ g := by
              have := List.length_drop MAX_CHUNK pt
              have hpos : 0 < pt.length := List.length_pos.mpr hpt
              simp only [MAX_CHUNK] at *
              omega
            rw [ih g _ hlen hlen2]

theorem chunkSplit_eq (pt : List Nat) :
    chunkSplit pt = if pt = [] then []
      else pt.take MAX_CHUNK :: chunkSplit (pt.drop MAX_CHUNK) := by
  by_cases hpt : pt = []
  · subst hpt; simp [chunkSplit, chunkSplitF]
  · have hpos : 0 < pt.length := List.length_pos.mpr hpt
    obtain ⟨k, hk⟩ : ∃ k, pt.length = k + 1 := ⟨pt.length - 1, by omega⟩
    simp only [chunkSplit, hk, chunkSplitF, if_neg hpt]
    rw [chunkSplitF_congr k (pt.drop MAX_CHUNK).length (pt.drop MAX_CHUNK)
      (by have := List.length_drop MAX_CHUNK pt; simp only [MAX_CHUNK] at *; omega)
      (le_refl _)]

theorem chunkSplit_join (pt : List Nat) : (chunkSplit pt).flatten = pt := by
  rw [chunkSplit_eq]
  by_cases hpt : pt = []
  · simp [hpt]
  · simp only [if_neg hpt, List.flatten_cons]
    rw [chunkSplit_join (pt.drop MAX_CHUNK)]
    exact List.take_append_drop MAX_CHUNK pt
termination_by pt.length
decreasing_by
  have hpos : 0 < pt.length := List.length_pos.mpr hpt
  simp only [List.length_drop, MAX_CHUNK]
  omega

theorem chunkSplit_bound (pt : List Nat) : ∀ (c : List Nat),
    c ∈ chunkSplit pt → c.length ≤ MAX_CHUNK := by
  intro c hc
  rw [chunkSplit_eq] at hc
  by_cases hpt : pt = []
  · simp [hpt] at hc
  · simp only [if_neg hpt, List.mem_cons] at hc
    rcases hc with hc | hc
    · subst hc
      simp only [List.length_take]
      omega
    · exact chunkSplit_bound (pt.drop MAX_CHUNK) c hc
termination_by pt.length
decreasing_by
  have hpos : 0 < pt.length := List.length_pos.mpr hpt
  simp only [List.length_drop, MAX_CHUNK]
  omega

theorem decProcessF_congr (key : List Nat) :
    ∀ f1 f2 nonce aw buf, buf.length ≤ f1 → buf.length ≤ f2 →
      decProcessF key f1 nonce aw buf = decProcessF key f2 nonce aw buf := by
  intro f1
  induction f1 with
  | zero =>
      intro f2 nonce aw buf h1 _
      have hb : buf = [] := List.eq_nil_of_length_eq_zero (Nat.le_zero.mp h1)
      subst hb
      cases f2 with
      | zero => rfl
      | succ g =>
          cases aw with
          | none =>
              simp only [decProcessF]
              rw [if_pos (by simp [TAG_LEN])]
          | some l =>
              simp only [decProcessF]
              rw [if_pos (by simp [TAG_LEN])]
  | succ k ih =>
      intro f2 nonce aw buf h1 h2
      cases f2 with
      | zero =>
          have hb : buf = [] := List.eq_nil_of_length_eq_zero (Nat.le_zero.mp h2)
          subst hb
          cases aw with
          | none =>
              simp only [decProcessF]
              rw [if_pos (by simp [TAG_LEN])]
          | some l =>
              simp only [decProcessF]
              rw [if_pos (by simp [TAG_LEN])]
      | succ g =>
          cases aw with
          | none =>
              simp only [decProcessF]
              by_cases hb : buf.length < 2 + TAG_LEN
              · rw [if_pos hb, if_pos hb]
              · rw [if_neg hb, if_neg hb]
                cases hopen : openRecord key nonce 2 (buf.take (2 + TAG_LEN)) with
                | none => rfl
                | some lenB =>
                    exact ih g (nonce + 1) (some (dec2 lenB)) (buf.drop (2 + TAG_LEN))
                      (by rw [List.length_drop]; simp only [TAG_LEN] at *; omega)
                      (by rw [List.length_drop]; simp only [TAG_LEN] at *; omega)
          | some l =>
              simp only [decProcessF]
              by_cases hb : buf.length < l + TAG_LEN
              · rw [if_pos hb, if_pos hb]
              · rw [if_neg hb, if_neg hb]
                cases hopen : openRecord key nonce l (buf.take (l + TAG_LEN)) with
                | none => rfl
                | some pt =>
                    rw [ih g (nonce + 1) none (buf.drop (l + TAG_LEN))
                      (by rw [List.length_drop]; simp only [TAG_LEN] at *; omega)
                      (by rw [List.length_drop]; simp only [TAG_LEN] at *; omega)]

theorem decProcess_none_eq (key : List Nat) (nonce : Nat) (buf : List Nat) :
    decProcess key nonce none buf =
      if buf.length < 2 + TAG_LEN then .ok (nonce, none, buf, [])
      else
        match openRecord key nonce 2 (buf.take (2 + TAG_LEN)) with
        | none => .error CipherError.tagMismatch
        | some lenB =>
            decProcess key (nonce + 1) (some (dec2 lenB)) (buf.drop (2 + TAG_LEN)) := by
  unfold decProcess
  rcases Nat.eq_zero_or_pos buf.length with h0 | hpos
  · have hb : buf = [] := List.eq_nil_of_length_eq_zero h0
    subst hb
    simp [decProcessF, TAG_LEN]
  · obtain ⟨k, hk⟩ : ∃ k, buf.length = k + 1 := ⟨buf.length - 1, by omega⟩
    have hstep : decProcessF key buf.length nonce none buf
        = decProcessF key (k + 1) nonce none buf := by rw [hk]
    rw [hstep]
    simp only [decProcessF]
    by_cases hb : buf.length < 2 + TAG_LEN
    · rw [if_pos hb, if_pos hb]
    · rw [if_neg hb, if_neg hb]
      cases hopen : openRecord key nonce 2 (buf.take (2 + TAG_LEN)) with
      | none => rfl
      | some lenB =>
          exact decProcessF_congr key k (buf.drop (2 + TAG_LEN)).length (nonce + 1)
            (some (dec2 lenB)) (buf.drop (2 + TAG_LEN))
            (by rw [List.length_drop]; simp only [TAG_LEN] at *; omega) (le_refl _)

theorem decProcess_some_eq (key : List Nat) (nonce l : Nat) (buf : List Nat) :
    decProcess key nonce (some l) buf =
      if buf.length < l + TAG_LEN then .ok (nonce, some l, buf, [])
      else
        match openRecord key nonce l (buf.take (l + TAG_LEN)) with
        | none => .error CipherError.tagMismatch
        | some pt =>
            match decProcess key (nonce + 1) none (buf.drop (l + TAG_LEN)) with
            | .error e => .error e
            | .ok (n', aw', buf', out) => .ok (n', aw', buf', pt ++ out) := by
  unfold decProcess
  rcases Nat.eq_zero_or_pos buf.length with h0 | hpos
  · have hb : buf = [] := List.eq_nil_of_length_eq_zero h0
    subst hb
    simp [decProcessF, TAG_LEN]
  · obtain ⟨k, hk⟩ : ∃ k, buf.length = k + 1 := ⟨buf.length - 1, by omega⟩
    have hstep : decProcessF key buf.length nonce (some l) buf
        = decProcessF key (k + 1) nonce (some l) buf := by rw [hk]
    rw [hstep]
    simp only [decProcessF]
    by_cases hb : buf.length < l + TAG_LEN
    · rw [if_pos hb, if_pos hb]
    · rw [if_neg hb, if_neg hb]
      cases hopen : openRecord key nonce l (buf.take (l + TAG_LEN)) with
      | none => rfl
      | some pt =>
          rw [decProcessF_congr key k (buf.drop (l + TAG_LEN)).length (nonce + 1)
            none (buf.drop (l + TAG_LEN))
            (by rw [List.length_drop]; simp only [TAG_LEN] at *; omega) (le_refl _)]

theorem decProcess_encChunks (key : List Nat) :
    ∀ (chunks : List (List Nat)) (nonce : Nat),
      (∀ c ∈ chunks, c.length ≤ MAX_CHUNK) →
      decProcess key nonce none (encChunks key nonce chunks).1 =
        .ok (nonce + 2 * chunks.length, none, [], chunks.flatten) := by
  intro chunks
  induction chunks with
  | nil =>
      intro nonce _
      rw [show (encChunks key nonce []).1 = [] from rfl, decProcess_none_eq]
      simp [TAG_LEN]
  | cons c cs ih =>
      intro nonce hb
      have hc : c.length ≤ MAX_CHUNK := hb c (List.mem_cons_self c cs)
      have hcs : ∀ x ∈ cs, x.length ≤ MAX_CHUNK := fun x hx => hb x (List.mem_cons_of_mem c hx)
      have h1 : (sealRecord key nonce (enc2 c.length)).length = 2 + TAG_LEN := by
        rw [sealRecord_length, enc2_length]
      have h2 : (sealRecord key (nonce + 1) c).length = c.length + TAG_LEN :=
        sealRecord_length key (nonce + 1) c
      simp only [encChunks]
      rw [List.append_assoc, decProcess_none_eq]
      rw [if_neg (by rw [List.length_append, h1]; omega)]
      rw [List.take_left' h1, List.drop_left' h1]
      have hopen1 : openRecord key nonce 2 (sealRecord key nonce (enc2 c.length)) =
          some (enc2 c.length) := by
        have h := openRecord_seal key nonce (enc2 c.length)
        rwa [enc2_length] at h
      rw [hopen1]
      dsimp only
      rw [dec2_enc2 c.length (by simp only [MAX_CHUNK] at hc; omega)]
      rw [decProcess_some_eq]
      rw [if_neg (by rw [List.length_append, h2]; omega)]
      rw [List.take_left' h2, List.drop_left' h2]
      rw [openRecord_seal key (nonce + 1) c]
      dsimp only
      rw [ih (nonce + 2) hcs]
      dsimp only
      have harith : nonce + 2 * (c :: cs).length = nonce + 2 + 2 * cs.length := by
        rw [List.length_cons]; ring
      rw [harith, List.flatten_cons]

theorem decProcess_tamper (key : List Nat) :
    ∀ (chunks : List (List Nat)) (nonce j m : Nat),
      (∀ c ∈ chunks, c.length ≤ MAX_CHUNK) → m ≠ 0 →
      j < (encChunks key nonce chunks).1.length →
      decProcess key nonce none
        ((encChunks key nonce chunks).1.set j
          ((encChunks key nonce chunks).1.getD j 0 ^^^ m)) =
        .error CipherError.tagMismatch := by
  intro chunks
  induction chunks with
  | nil =>
      intro nonce j m _ _ hj
      simp [encChunks] at hj
  | cons c cs ih =>
      intro nonce j m hb hm hj
      have hc : c.length ≤ MAX_CHUNK := hb c (List.mem_cons_self c cs)
      have hcs : ∀ x ∈ cs, x.length ≤ MAX_CHUNK := fun x hx => hb x (List.mem_cons_of_mem c hx)
      have h1 : (sealRecord key nonce (enc2 c.length)).length = 2 + TAG_LEN := by
        rw [sealRecord_length, enc2_length]
      have h2 : (sealRecord key (nonce + 1) c).length = c.length + TAG_LEN :=
        sealRecord_length key (nonce + 1) c
      simp only [encChunks] at hj ⊢
      rw [List.append_assoc] at hj ⊢
      by_cases hj1 : j < (sealRecord key nonce (enc2 c.length)).length
      · -- flip inside the length record
        rw [List.getD_append _ _ 0 j hj1, List.set_append_left j _ hj1]
        rw [decProcess_none_eq]
        have h1' : ((sealRecord key nonce (enc2 c.length)).set j
            ((sealRecord key nonce (enc2 c.length)).getD j 0 ^^^ m)).length = 2 + TAG_LEN := by
          rw [List.length_set]; exact h1
        rw [if_neg (by rw [List.length_append, h1']; omega)]
        rw [List.take_left' h1']
        have hopen : openRecord key nonce 2
            ((sealRecord key nonce (enc2 c.length)).set j
              ((sealRecord key nonce (enc2 c.length)).getD j 0 ^^^ m)) = none := by
          have h := openRecord_tamper key nonce (enc2 c.length) j m hj1 hm
          rwa [enc2_length] at h
        rw [hopen]
      · push_neg at hj1
        rw [List.getD_append_right _ _ 0 j hj1, List.set_append_right j _ hj1]
        by_cases hj2 : j - (sealRecord key nonce (enc2 c.length)).length <
            (sealRecord key (nonce + 1) c).length
        · -- flip inside the payload record
          rw [List.getD_append _ _ 0 _ hj2, List.set_append_left _ _ hj2]
          rw [decProcess_none_eq]
          rw [if_neg (by rw [List.length_append, h1]; omega)]
          rw [List.take_left' h1, List.drop_left' h1]
          have hopen1 : openRecord key nonce 2 (sealRecord key nonce (enc2 c.length)) =
              some (enc2 c.length) := by
            have h := openRecord_seal key nonce (enc2 c.length)
            rwa [enc2_length] at h
          rw [hopen1]
          dsimp only
          rw [dec2_enc2 c.length (by simp only [MAX_CHUNK] at hc; omega)]
          rw [decProcess_some_eq]
          have h2' : ((sealRecord key (nonce + 1) c).set
              (j - (sealRecord key nonce (enc2 c.length)).length)
              ((sealRecord key (nonce + 1) c).getD
                (j - (sealRecord key nonce (enc2 c.length)).length) 0 ^^^ m)).length =
              c.length + TAG_LEN := by
            rw [List.length_set]; exact h2
          rw [if_neg (by rw [List.length_append, h2']; omega)]
          rw [List.take_left' h2']
          rw [openRecord_tamper key (nonce + 1) c _ m hj2 hm]
        · -- flip beyond the first chunk's records
          push_neg at hj2
          rw [List.getD_append_right _ _ 0 _ hj2, List.set_append_right _ _ hj2]
          rw [decProcess_none_eq]
          rw [if_neg (by rw [List.length_append, h1]; omega)]
          rw [List.take_left' h1, List.drop_left' h1]
          have hopen1 : openRecord key nonce 2 (sealRecord key nonce (enc2 c.length)) =
              some (enc2 c.length) := by
            have h := openRecord_seal key nonce (enc2 c.length)
            rwa [enc2_length] at h
          rw [hopen1]
          dsimp only
          rw [dec2_enc2 c.length (by simp only [MAX_CHUNK] at hc; omega)]
          rw [decProcess_some_eq]
          rw [if_neg (by rw [List.length_append, List.length_set]; omega)]
          rw [List.take_left' h2, List.drop_left' h2]
          rw [openRecord_seal key (nonce + 1) c]
          dsimp only
          have hjr : j - (sealRecord key nonce (enc2 c.length)).length -
              (sealRecord key (nonce + 1) c).length <
              (encChunks key (nonce + 2) cs).1.length := by
            rw [List.length_append, List.length_append] at hj
            omega
          rw [ih (nonce + 2) _ m hcs hm hjr]

theorem decProcess_append (key : List Nat) (b1 : List Nat) (nonce : Nat)
    (aw : Option Nat) (b2 : List Nat) :
    decProcess key nonce aw (b1 ++ b2) =
      match decProcess key nonce aw b1 with
      | .error e => .error e
      | .ok (n', aw', buf', out) =>
          match decProcess key n' aw' (buf' ++ b2) with
          | .error e => .error e
          | .ok (n'', aw'', buf'', out2) => .ok (n'', aw'', buf'', out ++ out2) := by
  cases aw with
  | none =>
      by_cases hb : b1.length < 2 + TAG_LEN
      · rw [decProcess_none_eq key nonce b1, if_pos hb]
        dsimp only
        cases h : decProcess key nonce none (b1 ++ b2) with
        | error e => rfl
        | ok r =>
            obtain ⟨n'', aw'', buf'', out2⟩ := r
            dsimp only
            rw [List.nil_append]
      · have hble : 2 + TAG_LEN ≤ b1.length := Nat.le_of_not_lt hb
        have hb12 : ¬ (b1 ++ b2).length < 2 + TAG_LEN := by
          rw [List.length_append]; omega
        rw [decProcess_none_eq key nonce (b1 ++ b2), if_neg hb12,
            decProcess_none_eq key nonce b1, if_neg hb,
            List.take_append_of_le_length hble, List.drop_append_of_le_length hble]
        cases hopen : openRecord key nonce 2 (b1.take (2 + TAG_LEN)) with
        | none => rfl
        | some lenB =>
            dsimp only
            exact decProcess_append key (b1.drop (2 + TAG_LEN)) (nonce + 1)
              (some (dec2 lenB)) b2
  | some l =>
      by_cases hb : b1.length < l + TAG_LEN
      · rw [decProcess_some_eq key nonce l b1, if_pos hb]
        dsimp only
        cases h : decProcess key nonce (some l) (b1 ++ b2) with
        | error e => rfl
        | ok r =>
            obtain ⟨n'', aw'', buf'', out2⟩ := r
            dsimp only
            rw [List.nil_append]
      · have hble : l + TAG_LEN ≤ b1.length := Nat.le_of_not_lt hb
        have hb12 : ¬ (b1 ++ b2).length < l + TAG_LEN := by
          rw [List.length_append]; omega
        rw [decProcess_some_eq key nonce l (b1 ++ b2), if_neg hb12,
            decProcess_some_eq key nonce l b1, if_neg hb,
            List.take_append_of_le_length hble, List.drop_append_of_le_length hble]
        cases hopen : openRecord key nonce l (b1.take (l + TAG_LEN)) with
        | none => rfl
        | some pt =>
            dsimp only
            rw [decProcess_append key (b1.drop (l + TAG_LEN)) (nonce + 1) none b2]
            cases h1 : decProcess key (nonce + 1) none (b1.drop (l + TAG_LEN)) with
            | error e => rfl
            | ok r1 =>
                obtain ⟨n', aw', buf', out⟩ := r1
                dsimp only
                cases h2 : decProcess key n' aw' (buf' ++ b2) with
                | error e => rfl
                | ok r2 =>
                    obtain ⟨n'', aw'', buf'', out2⟩ := r2
                    dsimp only
                    rw [List.append_assoc]
termination_by b1.length
decreasing_by
  all_goals rw [List.length_drop]
  all_goals simp only [TAG_LEN] at *
  all_goals omega

theorem decProcess_quiescent (key : List Nat) (buf : List Nat) (nonce : Nat)
    (aw : Option Nat) (n' : Nat) (aw' : Option Nat) (buf' out : List Nat)
    (h : decProcess key nonce aw buf = .ok (n', aw', buf', out)) :
    decProcess key n' aw' buf' = .ok (n', aw', buf', []) := by
  cases aw with
  | none =>
      rw [decProcess_none_eq] at h
      by_cases hb : buf.length < 2 + TAG_LEN
      · rw [if_pos hb] at h
        simp only [Except.ok.injEq, Prod.mk.injEq] at h
        obtain ⟨h1, h2, h3, _⟩ := h
        subst h1; subst h2; subst h3
        rw [decProcess_none_eq, if_pos hb]
      · rw [if_neg hb] at h
        cases hopen : openRecord key nonce 2 (buf.take (2 + TAG_LEN)) with
        | none => rw [hopen] at h; exact absurd h (by simp)
        | some lenB =>
            rw [hopen] at h
            dsimp only at h
            exact decProcess_quiescent key (buf.drop (2 + TAG_LEN)) (nonce + 1)
              (some (dec2 lenB)) n' aw' buf' out h
  | some l =>
      rw [decProcess_some_eq] at h
      by_cases hb : buf.length < l + TAG_LEN
      · rw [if_pos hb] at h
        simp only [Except.ok.injEq, Prod.mk.injEq] at h
        obtain ⟨h1, h2, h3, _⟩ := h
        subst h1; subst h2; subst h3
        rw [decProcess_some_eq, if_pos hb]
      · rw [if_neg hb] at h
        cases hopen : openRecord key nonce l (buf.take (l + TAG_LEN)) with
        | none => rw [hopen] at h; exact absurd h (by simp)
        | some pt =>
            rw [hopen] at h
            dsimp only at h
            cases hrec : decProcess key (nonce + 1) none (buf.drop (l + TAG_LEN)) with
            | error e => rw [hrec] at h; exact absurd h (by simp)
            | ok r =>
                obtain ⟨a, b, c, d⟩ := r
                rw [hrec] at h
                dsimp only at h
                simp only [Except.ok.injEq, Prod.mk.injEq] at h
                obtain ⟨h1, h2, h3, _⟩ := h
                subst h1; subst h2; subst h3
                exact decProcess_quiescent key (buf.drop (l + TAG_LEN)) (nonce + 1)
                  none _ _ _ d hrec
termination_by buf.length
decreasing_by
  all_goals rw [List.length_drop]
  all_goals simp only [TAG_LEN] at *
  all_goals omega

theorem encChunks_trace (key : List Nat) :
    ∀ (chunks : List (List Nat)) (nonce : Nat),
      (encChunks key nonce chunks).2.1 = List.range' nonce (2 * chunks.length) := by
  intro chunks
  induction chunks with
  | nil => intro nonce; simp [encChunks]
  | cons c cs ih =>
      intro nonce
      have harith : 2 * (c :: cs).length = 2 * cs.length + 1 + 1 := by
        rw [List.length_cons]; ring
      rw [harith, List.range'_succ, List.range'_succ]
      simp only [encChunks]
      rw [ih (nonce + 2)]

theorem encChunks_final (key : List Nat) :
    ∀ (chunks : List (List Nat)) (nonce : Nat),
      (encChunks key nonce chunks).2.2 = nonce + 2 * chunks.length := by
  intro chunks
  induction chunks with
  | nil => intro nonce; simp [encChunks]
  | cons c cs ih =>
      intro nonce
      simp only [encChunks]
      rw [ih (nonce + 2), List.length_cons]
      ring

theorem streamXor_length {σ : Type} (next : σ → σ × Nat) :
    ∀ (bs : List Nat) (st : σ), (streamXor next st bs).2.length = bs.length := by
  intro bs
  induction bs with
  | nil => intro st; rfl
  | cons b bs ih => intro st; simp [streamXor, ih]

theorem streamXor_append {σ : Type} (next : σ → σ × Nat) :
    ∀ (b1 b2 : List Nat) (st : σ),
      streamXor next st (b1 ++ b2) =
        ((streamXor next (streamXor next st b1).1 b2).1,
          (streamXor next st b1).2 ++ (streamXor next (streamXor next st b1).1 b2).2) := by
  intro b1
  induction b1 with
  | nil => intro b2 st; simp [streamXor]
  | cons b bs ih =>
      intro b2 st
      simp only [List.cons_append, streamXor, List.append_eq]
      rw [ih b2 (next st).1]

theorem streamXor_inverse {σ : Type} (next : σ → σ × Nat) :
    ∀ (bs : List Nat) (st : σ),
      streamXor next st (streamXor next st bs).2 = ((streamXor next st bs).1, bs) := by
  intro bs
  induction bs with
  | nil => intro st; rfl
  | cons b bs ih =>
      intro st
      simp only [streamXor]
      rw [ih (next st).1, xor_xor_cancel]

theorem cipherUpdate_iv (c : Cipher) (d : List Nat) (c' : Cipher) (out : List Nat)
    (h : cipherUpdate c d = .ok (c', out)) : c'.iv = c.iv := by
  unfold cipherUpdate at h
  repeat' split at h
  all_goals
    first
    | exact Except.noConfusion h
    | (simp only [Except.ok.injEq, Prod.mk.injEq] at h
       obtain ⟨h1, _⟩ := h
       subst h1
       rfl)

theorem cipherUpdates_iv (ds : List (List Nat)) :
    ∀ (c c' : Cipher) (outs : List Nat),
      cipherUpdates c ds = .ok (c', outs) → c'.iv = c.iv := by
  induction ds with
  | nil =>
      intro c c' outs h
      simp only [cipherUpdates, Except.ok.injEq, Prod.mk.injEq] at h
      obtain ⟨h1, _⟩ := h
      subst h1
      rfl
  | cons d ds ih =>
      intro c c' outs h
      simp only [cipherUpdates] at h
      cases h1 : cipherUpdate c d with
      | error e => rw [h1] at h; exact absurd h (by simp)
      | ok r =>
          obtain ⟨c1, out1⟩ := r
          rw [h1] at h
          dsimp only at h
          cases h2 : cipherUpdates c1 ds with
          | error e => rw [h2] at h; exact absurd h (by simp)
          | ok r2 =>
              obtain ⟨c2, out2⟩ := r2
              rw [h2] at h
              dsimp only at h
              simp only [Except.ok.injEq, Prod.mk.injEq] at h
              obtain ⟨hc, _⟩ := h
              subst hc
              rw [ih c1 c2 out2 h2, cipherUpdate_iv c d c1 out1 h1]

theorem cipherUpdates_aead_dec (frags : List (List Nat)) :
    ∀ (c : Cipher), c.cipherInfo.type = CipherType.AEAD → c.encrypt = false →
      decProcess c.key c.nonce c.awaiting c.buf = .ok (c.nonce, c.awaiting, c.buf, []) →
      cipherUpdates c frags =
        match decProcess c.key c.nonce c.awaiting (c.buf ++ frags.flatten) with
        | .error e => .error e
        | .ok (n', aw', buf', out) =>
            .ok ({ c with nonce := n', awaiting := aw', buf := buf' }, out) := by
  induction frags with
  | nil =>
      intro c htype henc hq
      simp only [cipherUpdates, List.flatten_nil, List.append_nil, hq]
  | cons d ds ih =>
      intro c htype henc hq
      simp only [cipherUpdates, List.flatten_cons]
      have hupd : cipherUpdate c d =
          match decProcess c.key c.nonce c.awaiting (c.buf ++ d) with
          | .error e => .error e
          | .ok (n', aw', buf', out) =>
              .ok ({ c with nonce := n', awaiting := aw', buf := buf' }, out) := by
        unfold cipherUpdate
        rw [htype, henc]
        simp only [Bool.false_eq_true, if_false]
      rw [hupd]
      rw [show c.buf ++ (d ++ ds.flatten) = (c.buf ++ d) ++ ds.flatten from
        (List.append_assoc c.buf d ds.flatten).symm]
      rw [decProcess_append c.key (c.buf ++ d) c.nonce c.awaiting ds.flatten]
      cases hstep : decProcess c.key c.nonce c.awaiting (c.buf ++ d) with
      | error e => rfl
      | ok r =>
          obtain ⟨n1, aw1, buf1, out1⟩ := r
          dsimp only
          have hqs : decProcess c.key n1 aw1 buf1 = .ok (n1, aw1, buf1, []) :=
            decProcess_quiescent c.key (c.buf ++ d) c.nonce c.awaiting n1 aw1 buf1 out1 hstep
          have hih := ih { c with nonce := n1, awaiting := aw1, buf := buf1 }
            htype henc hqs
          dsimp only at hih
          rw [hih]
          cases hstep2 : decProcess c.key n1 aw1 (buf1 ++ ds.flatten) with
          | error e => rfl
          | ok r2 =>
              obtain ⟨n2, aw2, buf2, out2⟩ := r2
              dsimp only

theorem cipherUpdates_stream_rc4 (frags : List (List Nat)) :
    ∀ (c : Cipher) (st : RC4State),
      c.cipherInfo.type = CipherType.STREAM → c.rc4 = some st →
      cipherUpdates c frags =
        .ok ({ c with rc4 := some (streamXor rc4Next st frags.flatten).1 },
          (streamXor rc4Next st frags.flatten).2) := by
  induction frags with
  | nil =>
      intro c st htype hrc
      simp only [cipherUpdates, List.flatten_nil, streamXor]
      rw [← hrc]
  | cons d ds ih =>
      intro c st htype hrc
      simp only [cipherUpdates, List.flatten_cons]
      have hupd : cipherUpdate c d =
          .ok ({ c with rc4 := some (streamXor rc4Next st d).1 },
            (streamXor rc4Next st d).2) := by
        unfold cipherUpdate
        rw [htype, hrc]
      rw [hupd]
      dsimp only
      rw [ih { c with rc4 := some (streamXor rc4Next st d).1 }
        (streamXor rc4Next st d).1 htype rfl]
      dsimp only
      rw [streamXor_append rc4Next d ds.flatten st]

theorem cipherUpdates_stream_chacha (frags : List (List Nat)) :
    ∀ (c : Cipher) (st : ChaChaState),
      c.cipherInfo.type = CipherType.STREAM → c.rc4 = none → c.chacha = some st →
      cipherUpdates c frags =
        .ok ({ c with chacha := some (streamXor chachaNext st frags.flatten).1 },
          (streamXor chachaNext st frags.flatten).2) := by
  induction frags with
  | nil =>
      intro c st htype hrc hch
      simp only [cipherUpdates, List.flatten_nil, streamXor]
      rw [← hch]
  | cons d ds ih =>
      intro c st htype hrc hch
      simp only [cipherUpdates, List.flatten_cons]
      have hupd : cipherUpdate c d =
          .ok ({ c with chacha := some (streamXor chachaNext st d).1 },
            (streamXor chachaNext st d).2) := by
        unfold cipherUpdate
        rw [htype, hrc, hch]
      rw [hupd]
      dsimp only
      rw [ih { c with chacha := some (streamXor chachaNext st d).1 }
        (streamXor chachaNext st d).1 htype hrc rfl]
      dsimp only
      rw [streamXor_append chachaNext d ds.flatten st]

theorem lookup_mem (m : String) (b : CipherInfo) :
    ∀ (l : List (String × CipherInfo)), List.lookup m l = some b → (m, b) ∈ l := by
  intro l
  induction l with
  | nil => intro h; simp [List.lookup] at h
  | cons p ps ih =>
      intro h
      obtain ⟨k, v⟩ := p
      simp only [List.lookup] at h
      by_cases hk : (m == k) = true
      · rw [hk] at h
        have hkm : m = k := eq_of_beq hk
        have hvb : v = b := Option.some.inj h
        subst hkm; subst hvb
        exact List.mem_cons_self _ _
      · rw [Bool.not_eq_true] at hk
        rw [hk] at h
        exact List.mem_cons_of_mem _ (ih h)

theorem registry_aead_salt_eq_key :
    ∀ p ∈ cipherInfoMap, p.2.type = CipherType.AEAD → p.2.saltLen = p.2.keyLen := by
  decide

theorem makeCipher_aead (m : String) (info : CipherInfo) (psKey iv : List Nat)
    (e : Bool) (c : Cipher) (hl : List.lookup m cipherInfoMap = some info)
    (ht : info.type = CipherType.AEAD) (h : makeCipher m psKey iv e = some c) :
    c = { cipherInfo := info, key := deriveSubkey info psKey iv, iv := iv,
          encrypt := e, rc4 := none, chacha := none, nonce := 0,
          awaiting := none, buf := [] } := by
  unfold makeCipher at h
  rw [hl] at h
  dsimp only at h
  rw [ht] at h
  exact (Option.some.inj h).symm

theorem makeCipher_flag (m : String) (psKey iv : List Nat) (e : Bool) :
    makeCipher m psKey iv e =
      (makeCipher m psKey iv true).map (fun c => { c with encrypt := e }) := by
  unfold makeCipher
  cases List.lookup m cipherInfoMap with
  | none => rfl
  | some info =>
      dsimp only
      cases htype : info.type with
      | AEAD => rfl
      | STREAM =>
          dsimp only
          by_cases h1 : info.internalName = "RC4"
          · rw [if_pos h1, if_pos h1]; rfl
          · rw [if_neg h1, if_neg h1]
            by_cases h2 : info.internalName = "ChaCha"
            · rw [if_pos h2, if_pos h2]; rfl
            · rw [if_neg h2, if_neg h2]; rfl

theorem makeCipher_info (m : String) (info : CipherInfo) (psKey iv : List Nat)
    (e : Bool) (c : Cipher) (hl : List.lookup m cipherInfoMap = some info)
    (h : makeCipher m psKey iv e = some c) : c.cipherInfo = info := by
  unfold makeCipher at h
  rw [hl] at h
  dsimp only at h
  cases htype : info.type with
  | AEAD =>
      rw [htype] at h
      rw [← Option.some.inj h]
  | STREAM =>
      rw [htype] at h
      dsimp only at h
      by_cases h1 : info.internalName = "RC4"
      · rw [if_pos h1] at h
        rw [← Option.some.inj h]
      · rw [if_neg h1] at h
        by_cases h2 : info.internalName = "ChaCha"
        · rw [if_pos h2] at h
          rw [← Option.some.inj h]
        · rw [if_neg h2] at h
          exact absurd h (by simp)

theorem makeCipher_stream_state (m : String) (info : CipherInfo) (psKey iv : List Nat)
    (e : Bool) (c : Cipher) (hl : List.lookup m cipherInfoMap = some info)
    (ht : info.type = CipherType.STREAM) (h : makeCipher m psKey iv e = some c) :
    c.nonce = 0 ∧ c.awaiting = none ∧ c.buf = [] ∧ c.iv = iv := by
  unfold makeCipher at h
  rw [hl] at h
  dsimp only at h
  rw [ht] at h
  dsimp only at h
  by_cases h1 : info.internalName = "RC4"
  · rw [if_pos h1] at h
    rw [← Option.some.inj h]
    exact ⟨rfl, rfl, rfl, rfl⟩
  · rw [if_neg h1] at h
    by_cases h2 : info.internalName = "ChaCha"
    · rw [if_pos h2] at h
      rw [← Option.some.inj h]
      exact ⟨rfl, rfl, rfl, rfl⟩
    · rw [if_neg h2] at h
      exact absurd h (by simp)

theorem cipherUpdates_stream_id (frags : List (List Nat)) :
    ∀ (c : Cipher), c.cipherInfo.type = CipherType.STREAM → c.rc4 = none →
      c.chacha = none → cipherUpdates c frags = .ok (c, frags.flatten) := by
  induction frags with
  | nil => intro c _ _ _; simp [cipherUpdates]
  | cons d ds ih =>
      intro c htype hrc hch
      simp only [cipherUpdates, List.flatten_cons]
      have hupd : cipherUpdate c d = .ok (c, d) := by
        unfold cipherUpdate
        rw [htype, hrc, hch]
      rw [hupd]
      dsimp only
      rw [ih c htype hrc hch]

theorem decProcess_nil (key : List Nat) (nonce : Nat) :
    decProcess key nonce none [] = .ok (nonce, none, [], []) := by
  rw [decProcess_none_eq]
  simp [TAG_LEN]

/-- C1: for every plaintext `pt` and valid `(method, key, iv/salt)`, a
decrypting `Cipher` fed the encrypting `Cipher`'s output — under any
fragmentation of that byte stream across `update` calls — reconstructs
exactly the original plaintext. -/
theorem spec_c1_roundtrip (m : String) (psKey iv pt : List Nat) (ce cd ce' : Cipher)
    (ct : List Nat) (frags : List (List Nat))
    (hce : makeCipher m psKey iv true = some ce)
    (hcd : makeCipher m psKey iv false = some cd)
    (henc : cipherUpdate ce pt = .ok (ce', ct))
    (hfr : frags.flatten = ct) :
    ∃ cd', cipherUpdates cd frags = .ok (cd', pt) := by
  obtain ⟨info, hl⟩ : ∃ info, List.lookup m cipherInfoMap = some info := by
    unfold makeCipher at hce
    cases hlk : List.lookup m cipherInfoMap with
    | none => rw [hlk] at hce; exact absurd hce (by simp)
    | some info => exact ⟨info, rfl⟩
  have hcdce : cd = { ce with encrypt := false } := by
    rw [makeCipher_flag m psKey iv false, hce] at hcd
    exact (Option.some.inj hcd).symm
  subst hcdce
  obtain ⟨cinfo, ckey, civ, cenc, crc4, cchacha, cnonce, caw, cbuf⟩ := ce
  have hinfo : cinfo = info := makeCipher_info m info psKey iv true _ hl hce
  subst hinfo
  cases htype : cinfo.type with
  | AEAD =>
      have hce2 := makeCipher_aead m cinfo psKey iv true _ hl htype hce
      simp only [Cipher.mk.injEq] at hce2
      obtain ⟨-, hq3, hq4, hq5, hq6, hq7, hq8, hq9, hq10⟩ := hce2
      subst hq3; subst hq4; subst hq5; subst hq6; subst hq7
      subst hq8; subst hq9; subst hq10
      unfold cipherUpdate at henc
      dsimp only at henc
      rw [htype] at henc
      dsimp only at henc
      have hout := congrArg Prod.snd (Except.ok.inj henc)
      dsimp only at hout
      have hqq := cipherUpdates_aead_dec frags
        { cipherInfo := cinfo, key := deriveSubkey cinfo psKey civ, iv := civ,
          encrypt := false, rc4 := none, chacha := none, nonce := 0,
          awaiting := none, buf := [] } htype rfl (decProcess_nil _ 0)
      dsimp only at hqq
      rw [List.nil_append, hfr, ← hout] at hqq
      rw [decProcess_encChunks (deriveSubkey cinfo psKey civ) (chunkSplit pt) 0
        (chunkSplit_bound pt)] at hqq
      dsimp only at hqq
      rw [chunkSplit_join] at hqq
      exact ⟨_, hqq⟩
  | STREAM =>
      unfold cipherUpdate at henc
      dsimp only at henc
      rw [htype] at henc
      dsimp only at henc
      cases crc4 with
      | some st =>
          dsimp only at henc
          have hout := congrArg Prod.snd (Except.ok.inj henc)
          dsimp only at hout
          have hqq := cipherUpdates_stream_rc4 frags
            { cipherInfo := cinfo, key := ckey, iv := civ, encrypt := false,
              rc4 := some st, chacha := cchacha, nonce := cnonce,
              awaiting := caw, buf := cbuf } st htype rfl
          rw [hfr, ← hout, streamXor_inverse rc4Next pt st] at hqq
          exact ⟨_, hqq⟩
      | none =>
          cases cchacha with
          | some st =>
              dsimp only at henc
              have hout := congrArg Prod.snd (Except.ok.inj henc)
              dsimp only at hout
              have hqq := cipherUpdates_stream_chacha frags
                { cipherInfo := cinfo, key := ckey, iv := civ, encrypt := false,
                  rc4 := none, chacha := some st, nonce := cnonce,
                  awaiting := caw, buf := cbuf } st htype rfl rfl
              rw [hfr, ← hout, streamXor_inverse chachaNext pt st] at hqq
              exact ⟨_, hqq⟩
          | none =>
              dsimp only at henc
              have hout := congrArg Prod.snd (Except.ok.inj henc)
              dsimp only at hout
              have hqq := cipherUpdates_stream_id frags
                { cipherInfo := cinfo, key := ckey, iv := civ, encrypt := false,
                  rc4 := none, chacha := none, nonce := cnonce,
                  awaiting := caw, buf := cbuf } htype rfl rfl
              rw [hfr, ← hout] at hqq
              exact ⟨_, hqq⟩

/-- C2: for every AEAD ciphertext produced by a matching encryptor, flipping
any single bit (bit `t` of byte `j`) of any wire record makes the decrypting
`Cipher`'s `update` call that processes that record fail with `tagMismatch`,
returning no substituted or partial unauthenticated plaintext. -/
theorem spec_c2_tamper (m : String) (psKey iv pt : List Nat) (ce cd ce' : Cipher)
    (ct : List Nat) (j t : Nat)
    (hce : makeCipher m psKey iv true = some ce)
    (hcd : makeCipher m psKey iv false = some cd)
    (htype : ce.cipherInfo.type = CipherType.AEAD)
    (henc : cipherUpdate ce pt = .ok (ce', ct))
    (hj : j < ct.length) (ht : t < 8) :
    cipherUpdate cd (ct.set j (ct.getD j 0 ^^^ 2 ^ t)) =
      .error CipherError.tagMismatch := by
  obtain ⟨info, hl⟩ : ∃ info, List.lookup m cipherInfoMap = some info := by
    unfold makeCipher at hce
    cases hlk : List.lookup m cipherInfoMap with
    | none => rw [hlk] at hce; exact absurd hce (by simp)
    | some info => exact ⟨info, rfl⟩
  have hcdce : cd = { ce with encrypt := false } := by
    rw [makeCipher_flag m psKey iv false, hce] at hcd
    exact (Option.some.inj hcd).symm
  subst hcdce
  obtain ⟨cinfo, ckey, civ, cenc, crc4, cchacha, cnonce, caw, cbuf⟩ := ce
  have hinfo : cinfo = info := makeCipher_info m info psKey iv true _ hl hce
  subst hinfo
  dsimp only at htype
  have hce2 := makeCipher_aead m cinfo psKey iv true _ hl htype hce
  simp only [Cipher.mk.injEq] at hce2
  obtain ⟨-, hq3, hq4, hq5, hq6, hq7, hq8, hq9, hq10⟩ := hce2
  subst hq3; subst hq4; subst hq5; subst hq6; subst hq7
  subst hq8; subst hq9; subst hq10
  unfold cipherUpdate at henc ⊢
  dsimp only at henc ⊢
  rw [htype] at henc ⊢
  dsimp only at henc ⊢
  simp only [Bool.false_eq_true, if_false]
  have hout := congrArg Prod.snd (Except.ok.inj henc)
  dsimp only at hout
  rw [← hout] at hj ⊢
  rw [List.nil_append]
  rw [decProcess_tamper (deriveSubkey cinfo psKey civ) (chunkSplit pt) 0 j (2 ^ t)
    (chunkSplit_bound pt) (by positivity) hj]

/-- C4: for every ciphertext byte sequence and every partition of it into
fragments, feeding the fragments in order to a freshly constructed AEAD
decrypting `Cipher` gives exactly the same result (concatenated plaintext,
final state, or tag-mismatch failure) as one `update` call on the whole
sequence. -/
theorem spec_c4_fragmentation (m : String) (psKey iv ct : List Nat) (cd : Cipher)
    (frags : List (List Nat))
    (hcd : makeCipher m psKey iv false = some cd)
    (htype : cd.cipherInfo.type = CipherType.AEAD)
    (hfr : frags.flatten = ct) :
    cipherUpdates cd frags = cipherUpdate cd ct := by
  subst hfr
  obtain ⟨info, hl⟩ : ∃ info, List.lookup m cipherInfoMap = some info := by
    unfold makeCipher at hcd
    cases hlk : List.lookup m cipherInfoMap with
    | none => rw [hlk] at hcd; exact absurd hcd (by simp)
    | some info => exact ⟨info, rfl⟩
  obtain ⟨cinfo, ckey, civ, cenc, crc4, cchacha, cnonce, caw, cbuf⟩ := cd
  have hinfo : cinfo = info := makeCipher_info m info psKey iv false _ hl hcd
  subst hinfo
  dsimp only at htype
  have hcd2 := makeCipher_aead m cinfo psKey iv false _ hl htype hcd
  simp only [Cipher.mk.injEq] at hcd2
  obtain ⟨-, hq3, hq4, hq5, hq6, hq7, hq8, hq9, hq10⟩ := hcd2
  subst hq3; subst hq4; subst hq5; subst hq6; subst hq7
  subst hq8; subst hq9; subst hq10
  rw [cipherUpdates_aead_dec frags _ htype rfl (decProcess_nil _ 0)]
  unfold cipherUpdate
  dsimp only
  rw [htype]
  dsimp only
  simp only [Bool.false_eq_true, if_false]

/-- C3: AEAD nonce accounting — every constructed `Cipher` starts its nonce
counter at zero; an AEAD session encrypting `N` chunks performs exactly `2N`
seal operations whose nonce trace is the consecutive range (one nonce per
operation, no skip, no repeat) ending at initial-plus-`2N`; and an encrypt
`update` advances the cipher's nonce by exactly twice the number of chunks. -/
theorem spec_c3_nonce :
    (∀ (m : String) (psKey iv : List Nat) (e : Bool) (c : Cipher),
        makeCipher m psKey iv e = some c → c.nonce = 0) ∧
    (∀ (key : List Nat) (nonce : Nat) (chunks : List (List Nat)),
        (encChunks key nonce chunks).2.1.length = 2 * chunks.length ∧
        (encChunks key nonce chunks).2.1 = List.range' nonce (2 * chunks.length) ∧
        (encChunks key nonce chunks).2.2 = nonce + 2 * chunks.length) ∧
    (∀ (c : Cipher) (pt : List Nat) (c' : Cipher) (out : List Nat),
        c.cipherInfo.type = CipherType.AEAD → c.encrypt = true →
        cipherUpdate c pt = .ok (c', out) →
        c'.nonce = c.nonce + 2 * (chunkSplit pt).length) := by
  refine ⟨?_, ?_, ?_⟩
  · intro m psKey iv e c h
    unfold makeCipher at h
    repeat' split at h
    all_goals
      first
      | exact Option.noConfusion h
      | rw [← Option.some.inj h]
  · intro key nonce chunks
    refine ⟨?_, encChunks_trace key chunks nonce, encChunks_final key chunks nonce⟩
    rw [encChunks_trace key chunks nonce, List.length_range']
  · intro c pt c' out htype hflag h
    unfold cipherUpdate at h
    rw [htype, hflag] at h
    dsimp only at h
    have h1 := congrArg Prod.fst (Except.ok.inj h)
    dsimp only at h1
    rw [← h1]
    exact encChunks_final c.key (chunkSplit pt) c.nonce

/-- C5: with method `"chacha20-ietf-poly1305"`, a 32-byte master key and a
32-byte salt, encrypting the 5-byte plaintext `"hello"` yields exactly
`2 + 16 + 5 + 16 = 39` ciphertext bytes, and decrypting that exact 39-byte
buffer with a matching decryptor returns `"hello"`. -/
theorem spec_c5_hello :
    (encryptOnce "chacha20-ietf-poly1305" key32 salt32 helloBytes).map List.length =
      some 39 ∧
    (encryptOnce "chacha20-ietf-poly1305" key32 salt32 helloBytes).bind
      (decryptOnce "chacha20-ietf-poly1305" key32 salt32) = some helloBytes := by
  constructor
  · decide
  · decide

/-- C6: every stream-family `Cipher` transforms byte-for-byte —
`update` output length equals input length — and a decrypt-direction
instance with the same key and IV computes the identical transform as the
encrypt-direction instance, with the XOR keystream self-inverse: feeding the
encryptor's output to the matching decryptor returns the plaintext. -/
theorem spec_c6_stream :
    (∀ (c : Cipher) (data : List Nat) (c' : Cipher) (out : List Nat),
        c.cipherInfo.type = CipherType.STREAM →
        cipherUpdate c data = .ok (c', out) → out.length = data.length) ∧
    (∀ (m : String) (psKey iv pt : List Nat) (ce cd ce' : Cipher) (ct : List Nat),
        makeCipher m psKey iv true = some ce →
        makeCipher m psKey iv false = some cd →
        ce.cipherInfo.type = CipherType.STREAM →
        cipherUpdate ce pt = .ok (ce', ct) →
        (∃ cd1, cipherUpdate cd pt = .ok (cd1, ct)) ∧
        (∃ cd2, cipherUpdate cd ct = .ok (cd2, pt))) := by
  constructor
  · intro c data c' out htype h
    unfold cipherUpdate at h
    rw [htype] at h
    dsimp only at h
    cases hrc : c.rc4 with
    | some st =>
        rw [hrc] at h
        dsimp only at h
        have hout := congrArg Prod.snd (Except.ok.inj h)
        dsimp only at hout
        rw [← hout]
        exact streamXor_length rc4Next data st
    | none =>
        rw [hrc] at h
        dsimp only at h
        cases hch : c.chacha with
        | some st =>
            rw [hch] at h
            dsimp only at h
            have hout := congrArg Prod.snd (Except.ok.inj h)
            dsimp only at hout
            rw [← hout]
            exact streamXor_length chachaNext data st
        | none =>
            rw [hch] at h
            dsimp only at h
            have hout := congrArg Prod.snd (Except.ok.inj h)
            dsimp only at hout
            rw [← hout]
  · intro m psKey iv pt ce cd ce' ct hce hcd htype henc
    have hcdce : cd = { ce with encrypt := false } := by
      rw [makeCipher_flag m psKey iv false, hce] at hcd
      exact (Option.some.inj hcd).symm
    subst hcdce
    obtain ⟨cinfo, ckey, civ, cenc, crc4, cchacha, cnonce, caw, cbuf⟩ := ce
    dsimp only at htype
    unfold cipherUpdate at henc
    dsimp only at henc
    rw [htype] at henc
    dsimp only at henc
    cases crc4 with
    | some st =>
        dsimp only at henc
        have hout := congrArg Prod.snd (Except.ok.inj henc)
        dsimp only at hout
        subst hout
        have hd1 : cipherUpdate
            ⟨cinfo, ckey, civ, false, some st, cchacha, cnonce, caw, cbuf⟩ pt =
            .ok (⟨cinfo, ckey, civ, false,
              some (streamXor rc4Next st pt).1, cchacha, cnonce, caw, cbuf⟩,
              (streamXor rc4Next st pt).2) := by
          unfold cipherUpdate
          dsimp only
          rw [htype]
        have hd2 : cipherUpdate
            ⟨cinfo, ckey, civ, false, some st, cchacha, cnonce, caw, cbuf⟩
              ((streamXor rc4Next st pt).2) =
            .ok (⟨cinfo, ckey, civ, false,
              some (streamXor rc4Next st ((streamXor rc4Next st pt).2)).1,
              cchacha, cnonce, caw, cbuf⟩,
              (streamXor rc4Next st ((streamXor rc4Next st pt).2)).2) := by
          unfold cipherUpdate
          dsimp only
          rw [htype]
        rw [streamXor_inverse rc4Next pt st] at hd2
        dsimp only at hd2
        exact ⟨⟨_, hd1⟩, ⟨_, hd2⟩⟩
    | none =>
        cases cchacha with
        | some st =>
            dsimp only at henc
            have hout := congrArg Prod.snd (Except.ok.inj henc)
            dsimp only at hout
            subst hout
            have hd1 : cipherUpdate
                ⟨cinfo, ckey, civ, false, none, some st, cnonce, caw, cbuf⟩ pt =
                .ok (⟨cinfo, ckey, civ, false, none,
                  some (streamXor chachaNext st pt).1, cnonce, caw, cbuf⟩,
                  (streamXor chachaNext st pt).2) := by
              unfold cipherUpdate
              dsimp only
              rw [htype]
            have hd2 : cipherUpdate
                ⟨cinfo, ckey, civ, false, none, some st, cnonce, caw, cbuf⟩
                  ((streamXor chachaNext st pt).2) =
                .ok (⟨cinfo, ckey, civ, false, none,
                  some (streamXor chachaNext st ((streamXor chachaNext st pt).2)).1,
                  cnonce, caw, cbuf⟩,
                  (streamXor chachaNext st ((streamXor chachaNext st pt).2)).2) := by
              unfold cipherUpdate
              dsimp only
              rw [htype]
            rw [streamXor_inverse chachaNext pt st] at hd2
            dsimp only at hd2
            exact ⟨⟨_, hd1⟩, ⟨_, hd2⟩⟩
        | none =>
            dsimp only at henc
            have hout := congrArg Prod.snd (Except.ok.inj henc)
            dsimp only at hout
            subst hout
            have hd1 : cipherUpdate
                ⟨cinfo, ckey, civ, false, none, none, cnonce, caw, cbuf⟩ pt =
                .ok (⟨cinfo, ckey, civ, false, none, none, cnonce, caw, cbuf⟩, pt) := by
              unfold cipherUpdate
              dsimp only
              rw [htype]
            exact ⟨⟨_, hd1⟩, ⟨_, hd1⟩⟩

theorem hkdf_ne (secret info : List Nat) (n : Nat) (s1 s2 : List Nat)
    (h1 : s1.length = n) (h2 : s2.length = n) (hne : s1 ≠ s2) :
    hkdf secret s1 info n ≠ hkdf secret s2 info n := by
  intro heq
  apply hne
  apply List.ext_getElem (by rw [h1, h2])
  intro i hi1 hi2
  have hin : i < n := by rw [← h1]; exact hi1
  have hmap := congrArg (fun l => l.getD i 0) heq
  dsimp only at hmap
  rw [List.getD_eq_getElem _ _ (by simp [hkdf]; exact hin),
      List.getD_eq_getElem _ _ (by simp [hkdf]; exact hin)] at hmap
  unfold hkdf at hmap
  rw [List.getElem_map, List.getElem_map, List.getElem_range] at hmap
  have hc := congrArg
    (fun x => x ^^^ ((secret.foldr (· + ·) 0 * 131 +
      info.foldr (· + ·) 0 * 31 + i * 101) % 256)) hmap
  dsimp only at hc
  rw [xor_xor_cancel, xor_xor_cancel] at hc
  rw [List.getD_eq_getElem _ _ hi1, List.getD_eq_getElem _ _ hi2] at hc
  exact hc

/-- C7: for every AEAD method, the working key of the engine is
`HKDF(secret = masterKey, salt = salt, info = kdfLabel, length = keyLen)`,
and two sessions with the same master key but different (well-formed) salts
derive different working keys. -/
theorem spec_c7_kdf (m : String) (info : CipherInfo) (psKey s1 s2 : List Nat)
    (e1 e2 : Bool) (c1 c2 : Cipher)
    (hl : List.lookup m cipherInfoMap = some info)
    (ht : info.type = CipherType.AEAD)
    (h1 : makeCipher m psKey s1 e1 = some c1)
    (h2 : makeCipher m psKey s2 e2 = some c2)
    (hs1 : s1.length = info.saltLen) (hs2 : s2.length = info.saltLen)
    (hne : s1 ≠ s2) :
    c1.key = hkdf psKey s1 kdfLabel info.keyLen ∧ c1.key ≠ c2.key := by
  have hc1 := makeCipher_aead m info psKey s1 e1 c1 hl ht h1
  have hc2 := makeCipher_aead m info psKey s2 e2 c2 hl ht h2
  have hsalt : info.saltLen = info.keyLen :=
    registry_aead_salt_eq_key (m, info) (lookup_mem m info cipherInfoMap hl) ht
  constructor
  · rw [hc1]
    rfl
  · rw [hc1, hc2]
    dsimp only
    exact hkdf_ne psKey kdfLabel info.keyLen s1 s2
      (by rw [hs1, hsalt]) (by rw [hs2, hsalt]) hne

/-- C8: every method name present in the registry is reported supported and
carries a nonzero key length; every name absent from the registry (such as
`"bogus"`) is reported unsupported. -/
theorem spec_c8_registry :
    (∀ p ∈ cipherInfoMap, isSupported p.1 = true ∧ p.2.keyLen ≠ 0) ∧
    (∀ m : String, List.lookup m cipherInfoMap = none → isSupported m = false) := by
  constructor
  · decide
  · intro m hm
    unfold isSupported
    rw [hm]
    rfl

/-- C9: `getIV` returns the IV/salt fixed at construction, and its value is
unchanged by any sequence of `update` calls. -/
theorem spec_c9_iv (m : String) (psKey iv : List Nat) (e : Bool) (c : Cipher)
    (ds : List (List Nat)) (c' : Cipher) (outs : List Nat)
    (hmk : makeCipher m psKey iv e = some c)
    (hupd : cipherUpdates c ds = .ok (c', outs)) :
    getIV c = iv ∧ getIV c' = iv := by
  have hiv : c.iv = iv := by
    unfold makeCipher at hmk
    repeat' split at hmk
    all_goals
      first
      | exact Option.noConfusion hmk
      | rw [← Option.some.inj hmk]
  exact ⟨hiv, by rw [getIV, cipherUpdates_iv ds c c' outs hupd]; exact hiv⟩

/-- C10: `randomIv(length)` returns exactly `length` bytes, and the
`randomIv(method)` overload returns exactly the IV/salt length the method's
`CipherInfo` requires (salt length for AEAD, IV length otherwise). -/
theorem spec_c10_randomIv :
    (∀ (rng : Nat → Nat) (L : Nat), (randomIv rng L).length = L) ∧
    (∀ (rng : Nat → Nat) (m : String) (info : CipherInfo),
        List.lookup m cipherInfoMap = some info →
        ∃ l, randomIvMethod rng m = some l ∧
          l.length = if info.type = CipherType.AEAD then info.saltLen
            else info.ivLen) := by
  constructor
  · intro rng L
    simp [randomIv]
  · intro rng m info hl
    unfold randomIvMethod
    rw [hl]
    dsimp only [Option.map]
    by_cases htype : info.type = CipherType.AEAD
    · rw [if_pos htype, if_pos htype]
      exact ⟨_, rfl, by simp [randomIv]⟩
    · rw [if_neg htype, if_neg htype]
      exact ⟨_, rfl, by simp [randomIv]⟩

theorem spec_c1_roundtrip_witness :
    ∃ cd', cipherUpdates c5cd [c5ct.take 20, c5ct.drop 20] = .ok (cd', helloBytes) :=
  spec_c1_roundtrip "chacha20-ietf-poly1305" key32 salt32 helloBytes c5ce c5cd c5ce2
    c5ct [c5ct.take 20, c5ct.drop 20] (by decide) (by decide) (by decide) (by decide)

theorem spec_c2_tamper_witness :
    cipherUpdate c5cd (c5ct.set 0 (c5ct.getD 0 0 ^^^ 2 ^ 0)) =
      .error CipherError.tagMismatch :=
  spec_c2_tamper "chacha20-ietf-poly1305" key32 salt32 helloBytes c5ce c5cd c5ce2
    c5ct 0 0 (by decide) (by decide) (by decide) (by decide) (by decide) (by decide)

theorem spec_c3_nonce_witness :
    c5ce.nonce = 0 ∧
    (encChunks key32 5 [[1], [2]]).2.1 = List.range' 5 (2 * [[1], [2]].length) ∧
    c5ce2.nonce = c5ce.nonce + 2 * (chunkSplit helloBytes).length :=
  ⟨spec_c3_nonce.1 "chacha20-ietf-poly1305" key32 salt32 true c5ce (by decide),
   (spec_c3_nonce.2.1 key32 5 [[1], [2]]).2.1,
   spec_c3_nonce.2.2 c5ce helloBytes c5ce2 c5ct (by decide) (by decide) (by decide)⟩

theorem spec_c4_fragmentation_witness :
    cipherUpdates c5cd [[1], [2, 3]] = cipherUpdate c5cd [1, 2, 3] :=
  spec_c4_fragmentation "chacha20-ietf-poly1305" key32 salt32 [1, 2, 3] c5cd
    [[1], [2, 3]] (by decide) (by decide) (by decide)

set_option maxRecDepth 16384 in
theorem spec_c6_stream_witness :
    c6ct.length = c6pt.length ∧
    ((∃ cd1, cipherUpdate c6cd c6pt = .ok (cd1, c6ct)) ∧
     (∃ cd2, cipherUpdate c6cd c6ct = .ok (cd2, c6pt))) :=
  ⟨spec_c6_stream.1 c6ce c6pt c6ce2 c6ct (by decide) (by decide),
   spec_c6_stream.2 "chacha20" key32 iv8 c6pt c6ce c6cd c6ce2 c6ct
     (by decide) (by decide) (by decide) (by decide)⟩

theorem spec_c7_kdf_witness :
    c5ce.key = hkdf key32 salt32 kdfLabel aeadInfoCP.keyLen ∧ c5ce.key ≠ c7cd.key :=
  spec_c7_kdf "chacha20-ietf-poly1305" aeadInfoCP key32 salt32 salt32b true true
    c5ce c7cd (by decide) (by decide) (by decide) (by decide) (by decide)
    (by decide) (by decide)

theorem spec_c8_registry_witness :
    (isSupported "rc4-md5" = true ∧ rc4Info.keyLen ≠ 0) ∧
    isSupported "bogus" = false :=
  ⟨spec_c8_registry.1 ("rc4-md5", rc4Info) (by decide),
   spec_c8_registry.2 "bogus" (by decide)⟩

theorem spec_c9_iv_witness : getIV c5cd = salt32 ∧ getIV c5cd = salt32 :=
  spec_c9_iv "chacha20-ietf-poly1305" key32 salt32 false c5cd [[]] c5cd []
    (by decide) (by decide)

theorem spec_c10_randomIv_witness :
    (randomIv (fun _ => 7) 5).length = 5 ∧
    ∃ l, randomIvMethod (fun _ => 7) "aes-256-gcm" = some l ∧
      l.length = if aes256Info.type = CipherType.AEAD then aes256Info.saltLen
        else aes256Info.ivLen :=
  ⟨spec_c10_randomIv.1 (fun _ => 7) 5,
   spec_c10_randomIv.2 (fun _ => 7) "aes-256-gcm" aes256Info (by decide)⟩
